import Mathlib

/-
Verification of the threshold-model builder in prm/analyze/analyzer.py.

The Python module builds, per workload ("job"), per CPU-utilization band,
statistical performance thresholds, plus a per-job TDP (frequency floor)
record and a global latency-critical utilization ceiling (lcutilmax), and
persists the resulting model as JSON.

Shallow embedding conventions:
  * telemetry values (utilization, normalized frequency, ...) are modelled
    as rationals;
  * numpy integer band boundaries are naturals;
  * the external GmmFense estimator (gmmfense.py, consumed as a black box)
    is a function parameter returning `Except`, since it may raise;
  * scipy's `stats.norm.fit` is a function parameter returning the fitted
    (mean, std) pair;
  * Python exceptions are modelled as `Option`/`Except`/an error flag, with
    the mutated state at the raise point returned alongside the flag;
  * the persisted threshold file is the `persisted` field of the analyzer
    state: `some m` means the serialization of model `m` was last written.
-/

namespace PRM

/-- Python's `int()` conversion applied to a rational: truncation toward
zero (floor for non-negative values, negated floor of the negation
otherwise). -/
def pyint (q : ℚ) : ℤ :=
  if 0 ≤ q then q.floor else -((-q).floor)

/-- Python's `min` over a non-empty list ( `min(freq)` in
`_build_tdp_thresh`); the `[]` case is unreachable at its call site, which
is guarded by a non-emptiness test. -/
def pymin : List ℚ → ℚ
  | [] => 0
  | h :: t => t.foldl min h

/-- Pandas `.max()` over a non-empty column (`lcu.max()` in
`_process_lc_max`); on an empty column pandas yields NaN, which the caller
turns into an exception, modelled separately. -/
def pymax : List ℚ → ℚ
  | [] => 0
  | h :: t => t.foldl max h

/-- Analyzer.UTIL_BIN_STEP. -/
def UTIL_BIN_STEP : ℕ := 50

/-- Semantics of `np.arange(lower, upper, step)` on non-negative integers:
`ceil((upper - lower) / step)` values `lower + k * step`. -/
def arange (lower upper step : ℕ) : List ℕ :=
  (List.range ((upper - lower + step - 1) / step)).map (fun k => lower + k * step)

/-- Analyzer.partition_utilization: `np.arange(cpu_number * 50,
(cpu_number + 1) * 100, step)`. -/
def partition_utilization (cpu_number : ℕ) (step : ℕ := UTIL_BIN_STEP) : List ℕ :=
  arange (cpu_number * 50) ((cpu_number + 1) * 100) step

/-- One row of the metric table (metric.csv).  Numeric columns carry the
values used by the builders; whether the optional columns
(memory_bandwidth_total, stalls_l2miss_per_kilo_instruction,
stalls_memory_load_per_kilo_instruction) actually exist is a property of
the whole table, recorded in `MetricTable`. -/
structure MetricRow where
  name : String
  util : ℚ
  nf : ℚ
  cpi : ℚ
  mpki : ℚ
  mb : ℚ
  mbl : ℚ
  mbr : ℚ
  l2spki : ℚ
  mspki : ℚ
  deriving Repr, DecidableEq

/-- The metric table: its rows plus which optional columns are present. -/
structure MetricTable where
  rows : List MetricRow
  hasMB : Bool
  hasL2SPKI : Bool
  hasMSPKI : Bool
  deriving Repr, DecidableEq

/-- One row of the utilization table (util.csv). -/
structure UtilRow where
  name : String
  util : ℚ
  deriving Repr, DecidableEq

/-- The per-band threshold record appended to `threshold[job]['thresh']`. -/
structure BandThresh where
  util_start : ℕ
  util_end : ℕ
  cpi : ℚ
  mpki : ℚ
  mb : ℚ
  l2spki : Option ℚ
  mspki : Option ℚ
  deriving Repr, DecidableEq

/-- The per-job TDP record stored at `threshold[job]['tdp']`. -/
structure TdpThresh where
  util : ℚ
  mean : ℚ
  std : ℚ
  bar : ℚ
  deriving Repr, DecidableEq

/-- The value stored at `threshold[job]`: `tdp = none` models the empty
dict `\x7b\x7d` that `build_model` initializes the TDP record to. -/
structure JobEntry where
  tdp : Option TdpThresh
  thresh : List BandThresh
  deriving Repr, DecidableEq

/-- The in-memory threshold model `self.threshold`: the per-job entries
(an association list keyed by job name, in insertion order) plus the
sibling `lcutilmax` scalar (`none` when the key is absent). -/
structure Model where
  jobs : List (String × JobEntry)
  lcutilmax : Option ℚ
  deriving Repr, DecidableEq

/-- Python dict truthiness of `self.threshold`: empty iff it has no job
keys and no `lcutilmax` key. -/
def Model.isEmpty (m : Model) : Bool :=
  m.jobs.isEmpty && m.lcutilmax.isNone

/-- Association-list lookup (Python `d[k]` / `k in d` on string keys). -/
def assocLookup {α : Type} : List (String × α) → String → Option α
  | [], _ => none
  | (k, v) :: t, n => if k = n then some v else assocLookup t n

/-- Association-list assignment `d[k] = v`: replace in place if the key
exists, otherwise append (dict insertion order). -/
def assocSet {α : Type} : List (String × α) → String → α → List (String × α)
  | [], n, e => [(n, e)]
  | (k, v) :: t, n, e => if k = n then (n, e) :: t else (k, v) :: assocSet t n e

/-- The band boundaries enumerated by `_build_thresh`: for each index into
the partition, the lower bound is the partition value and the higher bound
is the next partition value, except that the last band's higher bound is
its lower bound plus `UTIL_BIN_STEP`. -/
def buildBands (part : List ℕ) : List (ℕ × ℕ) :=
  (List.range part.length).map (fun index =>
    let lower := part.getD index 0
    let higher :=
      if index ≠ part.length - 1 then part.getD (index + 1) 0
      else lower + UTIL_BIN_STEP
    (lower, higher))

/-- The bands `_build_thresh` iterates over for a job with `cpu_no` cores
(it always calls `partition_utilization` with step `UTIL_BIN_STEP`). -/
def jobBands (cpu_no : ℕ) : List (ℕ × ℕ) :=
  buildBands (partition_utilization cpu_no UTIL_BIN_STEP)

/-- The row filter `jdata[(jdata[UTIL] >= lower) & (jdata[UTIL] <= higher)]`
from `_build_thresh`: inclusive on both ends. -/
def bandRowFilter (jdata : List MetricRow) (lower higher : ℕ) : List MetricRow :=
  jdata.filter (fun r => decide ((lower : ℚ) ≤ r.util) && decide (r.util ≤ (higher : ℚ)))

/-- The near-saturation utilization cutoff `cpu_no * 100 * 0.95` used by
`_build_tdp_thresh`. -/
def tdpCutoff (cpu_no : ℕ) : ℚ :=
  (cpu_no : ℚ) * 100 * (95 / 100)

/-- The row filter `jdata[jdata[UTIL] >= utilization_threshold]` of
`_build_tdp_thresh`. -/
def tdpRowFilter (cpu_no : ℕ) (jdata : List MetricRow) : List MetricRow :=
  jdata.filter (fun r => decide (tdpCutoff cpu_no ≤ r.util))

/-- Analyzer._build_tdp_thresh for one job's rows.  `fit` stands for
scipy's `stats.norm.fit` maximum-likelihood normal fit, an external
numeric routine taken as a parameter; it returns the fitted (mean, std).
When no row reaches the cutoff the function stores nothing (`none`,
matching the guard `if not util.empty`); otherwise the floor `bar` is
`mean - 3 * std`, lowered to the minimum observed frequency when that
minimum is smaller. -/
def build_tdp_thresh (fit : List ℚ → ℚ × ℚ) (cpu_no : ℕ)
    (jdata : List MetricRow) : Option TdpThresh :=
  let utilization_threshold := tdpCutoff cpu_no
  let tdp_data := tdpRowFilter cpu_no jdata
  let freq := tdp_data.map (fun r => r.nf)
  if freq.isEmpty then none
  else
    let mean := (fit freq).1
    let std := (fit freq).2
    let min_freq := pymin freq
    let fbar := mean - 3 * std
    let fbar2 := if min_freq < fbar then min_freq else fbar
    some { util := utilization_threshold, mean := mean, std := std, bar := fbar2 }

/-- The external GmmFense estimator together with the strict/normal mode
selection of `_get_fense`: arguments are the sample vector, `is_upper`,
`strict` and `span`; it may fail (raise), hence `Except`. -/
def Fense : Type :=
  List ℚ → Bool → Bool → ℚ → Except String ℚ

/-- Analyzer._get_fense: dispatches to the external estimator (the mode
dispatch is inside the opaque `fense` parameter). -/
def get_fense (fense : Fense) (mdf : List ℚ) (is_upper : Bool)
    (strict : Bool) (span : ℚ) : Except String ℚ :=
  fense mdf is_upper strict span

/-- The body of the `try` block of `_build_thresh` for one band
`[lower, higher]`: filter the job's rows to the band, compute the cpi,
mpki and memory-bandwidth fences (the latter from the total-bandwidth
column when present, else from local + remote), then optionally the
l2spki and mspki fences; any failure aborts the whole band with no
record. -/
def computeBandThresh (fense : Fense) (tbl : MetricTable)
    (jdata : List MetricRow) (span : ℚ) (strict : Bool)
    (lower higher : ℕ) : Except String BandThresh := do
  let jdataf := bandRowFilter jdata lower higher
  let cpi_thresh ← get_fense fense (jdataf.map (fun r => r.cpi)) true strict span
  let mpki_thresh ← get_fense fense (jdataf.map (fun r => r.mpki)) true strict span
  let memb :=
    if tbl.hasMB then jdataf.map (fun r => r.mb)
    else jdataf.map (fun r => r.mbl + r.mbr)
  let mb_thresh ← get_fense fense memb false strict span
  let base : BandThresh :=
    { util_start := lower, util_end := higher, cpi := cpi_thresh,
      mpki := mpki_thresh, mb := mb_thresh, l2spki := none, mspki := none }
  let withL2 ←
    if tbl.hasL2SPKI then do
      let t ← get_fense fense (jdataf.map (fun r => r.l2spki)) true strict span
      pure { base with l2spki := some t }
    else pure base
  let withMs ←
    if tbl.hasMSPKI then do
      let t ← get_fense fense (jdataf.map (fun r => r.mspki)) true strict span
      pure { withL2 with mspki := some t }
    else pure withL2
  pure withMs

/-- The band loop of `_build_thresh` over an explicit band list: each band
that computes successfully appends its record; a band whose computation
fails is skipped (the `except` clause only logs). -/
def threshOverBands (fense : Fense) (tbl : MetricTable)
    (jdata : List MetricRow) (span : ℚ) (strict : Bool)
    (bands : List (ℕ × ℕ)) : List BandThresh :=
  bands.foldl (fun acc b =>
    match computeBandThresh fense tbl jdata span strict b.1 b.2 with
    | Except.ok thresh => acc ++ [thresh]
    | Except.error _ => acc) []

/-- Analyzer._build_thresh for one job: iterate the band loop over the
job's utilization bands. -/
def build_thresh (fense : Fense) (tbl : MetricTable) (jdata : List MetricRow)
    (span : ℚ) (strict : Bool) (cpu_no : ℕ) : List BandThresh :=
  threshOverBands fense tbl jdata span strict (jobBands cpu_no)

/-- Analyzer._process_lc_max: the row filter by name `lcs` is computed and
then immediately discarded (the second assignment to `lcu` in the source
replaces it with the full, unfiltered utilization column); the recorded
value is `int()` of the column maximum.  An empty column makes
`int(lcu.max())` raise (pandas yields NaN), modelled by `none`. -/
def process_lc_max (utilRows : List UtilRow) : Option ℚ :=
  let _lcu_discarded := utilRows.filter (fun r => r.name == "lcs")
  let lcu := utilRows.map (fun r => r.util)
  match lcu with
  | [] => none
  | _ :: _ => some ((pyint (pymax lcu) : ℤ) : ℚ)

/-- Pandas `Series.unique` over the `name` column: distinct values in
first-occurrence order. -/
def uniqueNames : List String → List String
  | [] => []
  | h :: t => h :: uniqueNames (t.filter (fun x => x != h))
  termination_by l => l.length
  decreasing_by
    simp only [List.length_cons]
    exact Nat.lt_succ_of_le (List.length_filter_le _ _)

/-- The mutable state of an Analyzer: the workload metadata (job name to
cpu count, read-only), the in-memory threshold model, and the last model
whose serialization was written to the threshold file (`none` when the
file was never written by this process). -/
structure AnalyzerState where
  workload_meta : List (String × ℕ)
  threshold : Model
  persisted : Option Model
  deriving Repr, DecidableEq

/-- The per-job loop of `build_model`.  For each distinct job name the
code first stores the fresh empty entry, then `_build_tdp_thresh` looks up
the job's core count in the workload metadata: a missing job raises
KeyError, which nothing catches, so the loop stops there with the partial
model (the flag `false` reports the escaped exception).  Otherwise the
TDP record and the band records are computed and stored; per-band
failures were already swallowed inside `_build_thresh`. -/
def runJobs (fense : Fense) (fit : List ℚ → ℚ × ℚ)
    (meta : List (String × ℕ)) (tbl : MetricTable) (span : ℚ)
    (strict : Bool) : Model → List String → Model × Bool
  | m, [] => (m, true)
  | m, c :: rest =>
    let m1 : Model := { m with jobs := assocSet m.jobs c { tdp := none, thresh := [] } }
    match assocLookup meta c with
    | none => (m1, false)
    | some cpu_no =>
      let jdata := tbl.rows.filter (fun r => r.name == c)
      let entry : JobEntry :=
        { tdp := build_tdp_thresh fit cpu_no jdata,
          thresh := build_thresh fense tbl jdata span strict cpu_no }
      runJobs fense fit meta tbl span strict
        { m1 with jobs := assocSet m1.jobs c entry } rest

/-- Analyzer.build_model.  Returns the new state together with a flag that
is `false` exactly when a Python exception escaped (empty utilization
column, or a job name missing from the workload metadata).  When the
in-memory model is non-empty the call returns at once; otherwise
`lcutilmax` is extracted, every distinct job of the metric table is
processed, and on full success the model is serialized to the threshold
file. -/
def build_model (fense : Fense) (fit : List ℚ → ℚ × ℚ)
    (s : AnalyzerState) (utilRows : List UtilRow) (tbl : MetricTable)
    (span : ℚ) (strict : Bool) : AnalyzerState × Bool :=
  if s.threshold.isEmpty = false then (s, true)
  else
    match process_lc_max utilRows with
    | none => (s, false)
    | some maxulc =>
      let m1 : Model := { s.threshold with lcutilmax := some maxulc }
      let cnames := uniqueNames (tbl.rows.map (fun r => r.name))
      let res := runJobs fense fit s.workload_meta tbl span strict m1 cnames
      if res.2 then
        ({ s with threshold := res.1, persisted := some res.1 }, true)
      else
        ({ s with threshold := res.1 }, false)

/-- Analyzer.get_lcutilmax: `self.threshold.get('lcutilmax', 0)`. -/
def get_lcutilmax (m : Model) : ℚ :=
  m.lcutilmax.getD 0

/-- Membership test `job in self.threshold`: the dict keys are the job
names plus, when set, the sibling key `lcutilmax`. -/
def Model.hasKey (m : Model) (k : String) : Bool :=
  (assocLookup m.jobs k).isSome || (k == "lcutilmax" && m.lcutilmax.isSome)

/-- Analyzer.get_thresh: the job's band-record list when the key is
present, else the empty dict (an empty collection, modelled as the empty
list).  Indexing the scalar `lcutilmax` key as if it were a job entry
would be a dynamic type error in Python; that unreachable-for-real-jobs
corner is modelled as the empty list. -/
def get_thresh (m : Model) (job : String) : List BandThresh :=
  if m.hasKey job then
    match assocLookup m.jobs job with
    | some e => e.thresh
    | none => []
  else []

/-- Analyzer.get_tdp_thresh: the job's TDP record when the key is present
(`none` models the empty dict it is initialized to), else the empty
dict. -/
def get_tdp_thresh (m : Model) (job : String) : Option TdpThresh :=
  if m.hasKey job then
    match assocLookup m.jobs job with
    | some e => e.tdp
    | none => none
  else none

/-- Analyzer.update_lcutilmax: overwrite the scalar and immediately
rewrite the threshold file. -/
def update_lcutilmax (s : AnalyzerState) (lc_utils : ℚ) : AnalyzerState :=
  let m : Model := { s.threshold with lcutilmax := some lc_utils }
  { s with threshold := m, persisted := some m }

/-- A fence estimator that always succeeds with bound 1; used to
instantiate theorems at concrete inputs. -/
def okFense : Fense :=
  fun _ _ _ _ => Except.ok 1

/-- A fence estimator that fails exactly on an empty sample vector (the
typical real failure mode: no samples in the band); used to instantiate
theorems at concrete inputs. -/
def emptyFailFense : Fense :=
  fun data _ _ _ => if data.isEmpty then Except.error "too few samples" else Except.ok 1

/-- A normal-fit stub returning mean 1, std 0; used to instantiate
theorems at concrete inputs. -/
def constFit : List ℚ → ℚ × ℚ :=
  fun _ => (1, 0)

section ArangeLemmas

variable {lower upper step : ℕ}

lemma arange_length :
    (arange lower upper step).length = (upper - lower + step - 1) / step := by
  simp [arange]

lemma arange_count_pos (hstep : 0 < step) (hlt : lower < upper) :
    0 < (upper - lower + step - 1) / step :=
  (Nat.one_le_div_iff hstep).mpr (by omega)

lemma arange_ne_nil (hstep : 0 < step) (hlt : lower < upper) :
    arange lower upper step ≠ [] := by
  have h : 0 < (upper - lower + step - 1) / step := arange_count_pos hstep hlt
  intro hcon
  have : (arange lower upper step).length = 0 := by rw [hcon]; rfl
  rw [arange_length] at this
  omega

lemma arange_head (hstep : 0 < step) (hlt : lower < upper) :
    (arange lower upper step).head? = some lower := by
  obtain ⟨m, hm⟩ := Nat.exists_eq_succ_of_ne_zero
    (Nat.pos_iff_ne_zero.mp (arange_count_pos hstep hlt))
  unfold arange
  rw [hm, List.range_succ_eq_map]
  simp

lemma arange_chain :
    List.Chain' (fun a b => b = a + step) (arange lower upper step) := by
  rw [List.chain'_iff_get]
  intro i h
  unfold arange at *
  simp only [List.get_eq_getElem, List.getElem_map, List.getElem_range]
  ring

lemma arange_mem_lt (hstep : 0 < step) (hlt : lower < upper) :
    ∀ x ∈ arange lower upper step, x < upper := by
  intro x hx
  unfold arange at hx
  simp only [List.mem_map, List.mem_range] at hx
  obtain ⟨k, hk, rfl⟩ := hx
  have hsplit : upper - lower + step - 1 = (upper - lower - 1) + step := by omega
  rw [hsplit, Nat.add_div_right _ hstep] at hk
  have hk1 : k ≤ (upper - lower - 1) / step := by omega
  have h2 : k * step ≤ ((upper - lower - 1) / step) * step :=
    Nat.mul_le_mul_right _ hk1
  have h3 : ((upper - lower - 1) / step) * step ≤ upper - lower - 1 :=
    Nat.div_mul_le_self _ _
  omega

lemma arange_pairwise_lt (hstep : 0 < step) :
    List.Pairwise (· < ·) (arange lower upper step) := by
  have hch : List.Chain' (· < ·) (arange lower upper step) :=
    arange_chain.imp (fun h => by omega)
  exact List.chain'_iff_pairwise.mp hch

end ArangeLemmas

/-- C1: for every core count `c ≥ 0` and every `step > 0`,
`partition_utilization c step` is a non-empty, strictly ascending sequence
whose first element is `50 * c`, in which each consecutive pair differs by
exactly `step`, and all of whose elements (in particular the last) are
strictly below `100 * (c + 1)`. -/
theorem partition_utilization_spec (c step : ℕ) (hstep : 0 < step) :
    partition_utilization c step ≠ [] ∧
    (partition_utilization c step).head? = some (50 * c) ∧
    List.Chain' (fun a b => b = a + step) (partition_utilization c step) ∧
    List.Pairwise (· < ·) (partition_utilization c step) ∧
    ∀ x ∈ partition_utilization c step, x < 100 * (c + 1) := by
  have hlt : c * 50 < (c + 1) * 100 := by omega
  refine ⟨arange_ne_nil hstep hlt, ?_, arange_chain,
    arange_pairwise_lt hstep, ?_⟩
  · rw [partition_utilization, arange_head hstep hlt, Nat.mul_comm]
  · intro x hx
    have := arange_mem_lt hstep hlt x hx
    omega

section BandLemmas

lemma partition_getD_spec (c : ℕ) (i : ℕ)
    (hi : i < (partition_utilization c UTIL_BIN_STEP).length) :
    (partition_utilization c UTIL_BIN_STEP).getD i 0 = c * 50 + i * 50 := by
  unfold partition_utilization arange UTIL_BIN_STEP at *
  simp only [List.length_map, List.length_range] at hi
  rw [List.getD_eq_getElem _ _ (by simpa using hi)]
  simp

lemma jobBands_getD (c : ℕ) (i : ℕ) (hi : i < (jobBands c).length) :
    (jobBands c).getD i (0, 0) =
      (c * 50 + i * 50,
       if i ≠ (partition_utilization c UTIL_BIN_STEP).length - 1 then
         (partition_utilization c UTIL_BIN_STEP).getD (i + 1) 0
       else c * 50 + i * 50 + UTIL_BIN_STEP) := by
  unfold jobBands buildBands at *
  simp only [List.length_map, List.length_range] at hi
  rw [List.getD_eq_getElem _ _ (by simpa using hi)]
  simp only [List.getElem_map, List.getElem_range]
  rw [partition_getD_spec c i hi]

lemma jobBands_length (c : ℕ) :
    (jobBands c).length = (partition_utilization c UTIL_BIN_STEP).length := by
  unfold jobBands buildBands
  simp

lemma jobBands_getD_eq (c : ℕ) (i : ℕ) (hi : i < (jobBands c).length) :
    (jobBands c).getD i (0, 0) = (c * 50 + i * 50, c * 50 + i * 50 + 50) := by
  rw [jobBands_getD c i hi]
  have hlen : (jobBands c).length = (partition_utilization c UTIL_BIN_STEP).length :=
    jobBands_length c
  by_cases hcase : i ≠ (partition_utilization c UTIL_BIN_STEP).length - 1
  · rw [if_pos hcase, partition_getD_spec c (i + 1) (by omega)]
    have harith : c * 50 + (i + 1) * 50 = c * 50 + i * 50 + 50 := by ring
    rw [harith]
  · rw [if_neg hcase]
    rfl

end BandLemmas

/-- C2: for every core count, adjacent bands built by `_build_thresh`
share their boundary (band `i`'s end is band `i+1`'s start), the final
band's end is its start plus `UTIL_BIN_STEP`, every band has width exactly
`UTIL_BIN_STEP`, and the inclusive `[start, end]` row filter places a
sample lying exactly on a shared boundary in both adjacent bands. -/
theorem jobBands_spec (c : ℕ) :
    (∀ i, i + 1 < (jobBands c).length →
      ((jobBands c).getD i (0, 0)).2 = ((jobBands c).getD (i + 1) (0, 0)).1) ∧
    (∀ b ∈ (jobBands c).getLast?, b.2 = b.1 + UTIL_BIN_STEP) ∧
    (∀ b ∈ jobBands c, b.2 = b.1 + UTIL_BIN_STEP) ∧
    (∀ (rows : List MetricRow) (r : MetricRow) (i : ℕ),
      i + 1 < (jobBands c).length → r ∈ rows →
      r.util = (((jobBands c).getD i (0, 0)).2 : ℚ) →
      r ∈ bandRowFilter rows ((jobBands c).getD i (0, 0)).1
            ((jobBands c).getD i (0, 0)).2 ∧
      r ∈ bandRowFilter rows ((jobBands c).getD (i + 1) (0, 0)).1
            ((jobBands c).getD (i + 1) (0, 0)).2) := by
  have hmem : ∀ b ∈ jobBands c, b.2 = b.1 + UTIL_BIN_STEP := by
    intro b hb
    obtain ⟨i, hi, hbe⟩ := List.mem_iff_getElem.mp hb
    have hd : (jobBands c).getD i (0, 0) = b := by
      rw [List.getD_eq_getElem _ _ hi]; exact hbe
    rw [← hd, jobBands_getD_eq c i hi]
    rfl
  refine ⟨?_, ?_, hmem, ?_⟩
  · intro i hi
    rw [jobBands_getD_eq c i (by omega), jobBands_getD_eq c (i + 1) hi]
    show c * 50 + i * 50 + 50 = c * 50 + (i + 1) * 50
    ring
  · intro b hb
    exact hmem b (List.mem_of_mem_getLast? hb)
  · intro rows r i hi hr hb
    have h1 := jobBands_getD_eq c i (by omega)
    have h2 := jobBands_getD_eq c (i + 1) hi
    rw [h1] at hb
    rw [h1, h2]
    have hb' : r.util = ((c * 50 + i * 50 + 50 : ℕ) : ℚ) := hb
    constructor
    · show r ∈ bandRowFilter rows (c * 50 + i * 50) (c * 50 + i * 50 + 50)
      unfold bandRowFilter
      rw [List.mem_filter]
      refine ⟨hr, ?_⟩
      simp only [Bool.and_eq_true, decide_eq_true_eq]
      rw [hb']
      push_cast
      constructor <;> linarith
    · show r ∈ bandRowFilter rows (c * 50 + (i + 1) * 50) (c * 50 + (i + 1) * 50 + 50)
      unfold bandRowFilter
      rw [List.mem_filter]
      refine ⟨hr, ?_⟩
      simp only [Bool.and_eq_true, decide_eq_true_eq]
      rw [hb']
      push_cast
      constructor <;> linarith

/-- Concrete instantiation of `jobBands_spec` at core count 0: the bands
are `[(0, 50), (50, 100)]` and a sample with utilization exactly 50 passes
the row filter of both bands. -/
theorem jobBands_spec_wit :
    (0 + 1 < (jobBands 0).length ∧
     ((jobBands 0).getD 0 (0, 0)).2 = ((jobBands 0).getD 1 (0, 0)).1) ∧
    (∀ b ∈ (jobBands 0).getLast?, b.2 = b.1 + UTIL_BIN_STEP) ∧
    (let r : MetricRow :=
      ⟨"job", 50, 1, 1, 1, 1, 1, 1, 1, 1⟩
     r ∈ bandRowFilter [r] ((jobBands 0).getD 0 (0, 0)).1
           ((jobBands 0).getD 0 (0, 0)).2 ∧
     r ∈ bandRowFilter [r] ((jobBands 0).getD 1 (0, 0)).1
           ((jobBands 0).getD 1 (0, 0)).2) := by
  have h := jobBands_spec 0
  refine ⟨⟨by decide, h.1 0 (by decide)⟩, h.2.1, ?_⟩
  have hb := h.2.2.2 [⟨"job", 50, 1, 1, 1, 1, 1, 1, 1, 1⟩]
    ⟨"job", 50, 1, 1, 1, 1, 1, 1, 1, 1⟩ 0 (by decide) (by decide) (by decide)
  exact hb

/-- Concrete instantiation of `partition_utilization_spec` at core count 1,
step 50 (the code's default step). -/
theorem partition_utilization_spec_wit :
    0 < 50 ∧
    (partition_utilization 1 50 ≠ [] ∧
     (partition_utilization 1 50).head? = some (50 * 1) ∧
     List.Chain' (fun a b => b = a + 50) (partition_utilization 1 50) ∧
     List.Pairwise (· < ·) (partition_utilization 1 50) ∧
     ∀ x ∈ partition_utilization 1 50, x < 100 * (1 + 1)) :=
  ⟨by decide, partition_utilization_spec 1 50 (by decide)⟩

section MinLemmas

lemma foldl_min_le_init (l : List ℚ) (a : ℚ) : l.foldl min a ≤ a := by
  induction l generalizing a with
  | nil => simp
  | cons h t ih =>
    simp only [List.foldl_cons]
    exact le_trans (ih (min a h)) (min_le_left a h)

lemma foldl_min_le_mem (l : List ℚ) (a : ℚ) : ∀ x ∈ l, l.foldl min a ≤ x := by
  induction l generalizing a with
  | nil => simp
  | cons h t ih =>
    intro x hx
    simp only [List.foldl_cons]
    rcases List.mem_cons.mp hx with rfl | hx'
    · exact le_trans (foldl_min_le_init t (min a x)) (min_le_right a x)
    · exact ih (min a h) x hx'

lemma foldl_min_mem (l : List ℚ) (a : ℚ) : l.foldl min a ∈ a :: l := by
  induction l generalizing a with
  | nil => simp
  | cons h t ih =>
    simp only [List.foldl_cons]
    have hm := ih (min a h)
    rcases List.mem_cons.mp hm with heq | hmem
    · rcases min_choice a h with h1 | h1 <;> rw [heq, h1]
      · exact List.mem_cons_self _ _
      · exact List.mem_cons_of_mem _ (List.mem_cons_self _ _)
    · exact List.mem_cons_of_mem _ (List.mem_cons_of_mem _ hmem)

lemma pymin_le (l : List ℚ) : ∀ x ∈ l, pymin l ≤ x := by
  cases l with
  | nil => simp
  | cons h t =>
    intro x hx
    rcases List.mem_cons.mp hx with rfl | hx'
    · exact foldl_min_le_init t x
    · exact foldl_min_le_mem t h x hx'

lemma pymin_mem (l : List ℚ) (h : l ≠ []) : pymin l ∈ l := by
  cases l with
  | nil => exact absurd rfl h
  | cons a t => exact foldl_min_mem t a

end MinLemmas

section TdpLemmas

lemma mem_tdpRowFilter {cpu_no : ℕ} {jdata : List MetricRow} {r : MetricRow} :
    r ∈ tdpRowFilter cpu_no jdata ↔ r ∈ jdata ∧ tdpCutoff cpu_no ≤ r.util := by
  unfold tdpRowFilter
  rw [List.mem_filter]
  simp

lemma build_tdp_thresh_eq (fit : List ℚ → ℚ × ℚ) (cpu_no : ℕ)
    (jdata : List MetricRow)
    (hne : (tdpRowFilter cpu_no jdata).map (fun r => r.nf) ≠ []) :
    build_tdp_thresh fit cpu_no jdata =
      some { util := tdpCutoff cpu_no,
             mean := (fit ((tdpRowFilter cpu_no jdata).map (fun r => r.nf))).1,
             std := (fit ((tdpRowFilter cpu_no jdata).map (fun r => r.nf))).2,
             bar :=
               if pymin ((tdpRowFilter cpu_no jdata).map (fun r => r.nf)) <
                   (fit ((tdpRowFilter cpu_no jdata).map (fun r => r.nf))).1 -
                     3 * (fit ((tdpRowFilter cpu_no jdata).map (fun r => r.nf))).2
               then pymin ((tdpRowFilter cpu_no jdata).map (fun r => r.nf))
               else (fit ((tdpRowFilter cpu_no jdata).map (fun r => r.nf))).1 -
                      3 * (fit ((tdpRowFilter cpu_no jdata).map (fun r => r.nf))).2 } := by
  have hemp : ((tdpRowFilter cpu_no jdata).map (fun r => r.nf)).isEmpty = false := by
    cases hm : (tdpRowFilter cpu_no jdata).map (fun r => r.nf) with
    | nil => exact absurd hm hne
    | cons a t => rfl
  unfold build_tdp_thresh
  simp only [hemp, Bool.false_eq_true, if_false]

end TdpLemmas

/-- C3: for every job with at least one row at or above the near-saturation
cutoff, `_build_tdp_thresh` records a TDP entry whose `bar` equals
`mean - 3 * std` when no filtered normalized-frequency value lies below
that candidate, and equals the minimum filtered normalized-frequency value
otherwise; consequently `bar` is at most every near-saturation
normalized-frequency value of the job.  The fitted pair (mean, std) is
whatever the external `stats.norm.fit` returns on the filtered
frequencies. -/
theorem build_tdp_thresh_spec (fit : List ℚ → ℚ × ℚ) (cpu_no : ℕ)
    (jdata : List MetricRow)
    (h : ∃ r ∈ jdata, tdpCutoff cpu_no ≤ r.util) :
    ∃ rec : TdpThresh,
      build_tdp_thresh fit cpu_no jdata = some rec ∧
      ((∀ f ∈ (tdpRowFilter cpu_no jdata).map (fun r => r.nf),
          ¬ f < (fit ((tdpRowFilter cpu_no jdata).map (fun r => r.nf))).1 -
                3 * (fit ((tdpRowFilter cpu_no jdata).map (fun r => r.nf))).2) →
        rec.bar = (fit ((tdpRowFilter cpu_no jdata).map (fun r => r.nf))).1 -
                  3 * (fit ((tdpRowFilter cpu_no jdata).map (fun r => r.nf))).2) ∧
      ((∃ f ∈ (tdpRowFilter cpu_no jdata).map (fun r => r.nf),
          f < (fit ((tdpRowFilter cpu_no jdata).map (fun r => r.nf))).1 -
              3 * (fit ((tdpRowFilter cpu_no jdata).map (fun r => r.nf))).2) →
        rec.bar = pymin ((tdpRowFilter cpu_no jdata).map (fun r => r.nf))) ∧
      (∀ r ∈ jdata, tdpCutoff cpu_no ≤ r.util → rec.bar ≤ r.nf) := by
  obtain ⟨r0, hr0, hcut0⟩ := h
  have hr0f : r0 ∈ tdpRowFilter cpu_no jdata :=
    mem_tdpRowFilter.mpr ⟨hr0, hcut0⟩
  have hnffreq : r0.nf ∈ (tdpRowFilter cpu_no jdata).map (fun r => r.nf) :=
    List.mem_map_of_mem _ hr0f
  have hne : (tdpRowFilter cpu_no jdata).map (fun r => r.nf) ≠ [] := by
    intro hcon
    rw [hcon] at hnffreq
    exact absurd hnffreq (List.not_mem_nil _)
  refine ⟨_, build_tdp_thresh_eq fit cpu_no jdata hne, ?_, ?_, ?_⟩
  · intro hall
    have hmin := pymin_mem _ hne
    rw [if_neg (hall _ hmin)]
  · intro hex
    obtain ⟨f, hf, hflt⟩ := hex
    have : pymin ((tdpRowFilter cpu_no jdata).map (fun r => r.nf)) ≤ f :=
      pymin_le _ f hf
    rw [if_pos (lt_of_le_of_lt this hflt)]
  · intro r hr hcut
    have hrf : r ∈ tdpRowFilter cpu_no jdata := mem_tdpRowFilter.mpr ⟨hr, hcut⟩
    have hfr : r.nf ∈ (tdpRowFilter cpu_no jdata).map (fun r => r.nf) :=
      List.mem_map_of_mem _ hrf
    have hminle := pymin_le _ r.nf hfr
    by_cases hc : pymin ((tdpRowFilter cpu_no jdata).map (fun r => r.nf)) <
        (fit ((tdpRowFilter cpu_no jdata).map (fun r => r.nf))).1 -
          3 * (fit ((tdpRowFilter cpu_no jdata).map (fun r => r.nf))).2
    · simp only [if_pos hc]
      exact hminle
    · simp only [if_neg hc]
      exact le_trans (not_lt.mp hc) hminle

/-- Concrete instantiation of `build_tdp_thresh_spec`: one row at
utilization 100 for a 1-core job (cutoff 95), normalized frequency 2,
fitted mean 1 and std 0, so the recorded bar is 1 and lies below the
observed frequency 2. -/
theorem build_tdp_thresh_spec_wit :
    (∃ r ∈ [(⟨"j", 100, 2, 1, 1, 1, 1, 1, 1, 1⟩ : MetricRow)],
        tdpCutoff 1 ≤ r.util) ∧
    (∃ rec : TdpThresh,
      build_tdp_thresh constFit 1 [(⟨"j", 100, 2, 1, 1, 1, 1, 1, 1, 1⟩ : MetricRow)] =
        some rec ∧
      ∀ r ∈ [(⟨"j", 100, 2, 1, 1, 1, 1, 1, 1, 1⟩ : MetricRow)],
        tdpCutoff 1 ≤ r.util → rec.bar ≤ r.nf) := by
  have h0 : ∃ r ∈ [(⟨"j", 100, 2, 1, 1, 1, 1, 1, 1, 1⟩ : MetricRow)],
      tdpCutoff 1 ≤ r.util :=
    ⟨⟨"j", 100, 2, 1, 1, 1, 1, 1, 1, 1⟩, List.mem_singleton_self _,
      by norm_num [tdpCutoff]⟩
  have h := build_tdp_thresh_spec constFit 1
    [(⟨"j", 100, 2, 1, 1, 1, 1, 1, 1, 1⟩ : MetricRow)] h0
  obtain ⟨rec, heq, _, _, hle⟩ := h
  exact ⟨h0, rec, heq, hle⟩

section ThreshLemmas

lemma foldl_thresh_eq (fense : Fense) (tbl : MetricTable)
    (jdata : List MetricRow) (span : ℚ) (strict : Bool)
    (bands : List (ℕ × ℕ)) (acc : List BandThresh) :
    bands.foldl (fun acc b =>
      match computeBandThresh fense tbl jdata span strict b.1 b.2 with
      | Except.ok thresh => acc ++ [thresh]
      | Except.error _ => acc) acc
    = acc ++ bands.filterMap
        (fun b => (computeBandThresh fense tbl jdata span strict b.1 b.2).toOption) := by
  induction bands generalizing acc with
  | nil => simp
  | cons b rest ih =>
    simp only [List.foldl_cons, List.filterMap_cons]
    cases hcb : computeBandThresh fense tbl jdata span strict b.1 b.2 with
    | ok t =>
      simp [Except.toOption, ih]
    | error e =>
      simp [Except.toOption, ih]

lemma threshOverBands_eq (fense : Fense) (tbl : MetricTable)
    (jdata : List MetricRow) (span : ℚ) (strict : Bool)
    (bands : List (ℕ × ℕ)) :
    threshOverBands fense tbl jdata span strict bands
      = bands.filterMap
          (fun b => (computeBandThresh fense tbl jdata span strict b.1 b.2).toOption) := by
  unfold threshOverBands
  rw [foldl_thresh_eq]
  simp

lemma runJobs_ok (fense : Fense) (fit : List ℚ → ℚ × ℚ)
    (meta : List (String × ℕ)) (tbl : MetricTable) (span : ℚ) (strict : Bool) :
    ∀ (names : List String) (m : Model),
      (∀ c ∈ names, (assocLookup meta c).isSome = true) →
      (runJobs fense fit meta tbl span strict m names).2 = true := by
  intro names
  induction names with
  | nil => intro m _; rfl
  | cons c rest ih =>
    intro m hmeta
    cases hml : assocLookup meta c with
    | none =>
      have := hmeta c (List.mem_cons_self _ _)
      rw [hml] at this
      cases this
    | some cpu =>
      simp only [runJobs, hml]
      exact ih _ (fun c' hc' => hmeta c' (List.mem_cons_of_mem _ hc'))

end ThreshLemmas

/-- C5: if computing the fence thresholds of one band fails, the band loop
of `_build_thresh` appends no record at all for that band and the records
produced for the remaining bands are exactly what they would be with the
failing band removed; moreover every record in the output comes from a
band whose computation succeeded, and fence failures never abort the
per-job loop: whenever every job name has workload metadata, the loop
processes all jobs to completion regardless of the fence estimator. -/
theorem threshOverBands_skips_failed_band (fense : Fense) (tbl : MetricTable)
    (jdata : List MetricRow) (span : ℚ) (strict : Bool)
    (pre post : List (ℕ × ℕ)) (b : ℕ × ℕ) (e : String)
    (hb : computeBandThresh fense tbl jdata span strict b.1 b.2 = Except.error e) :
    threshOverBands fense tbl jdata span strict (pre ++ b :: post)
      = threshOverBands fense tbl jdata span strict pre ++
        threshOverBands fense tbl jdata span strict post ∧
    (∀ rec ∈ threshOverBands fense tbl jdata span strict (pre ++ b :: post),
      ∃ b' ∈ pre ++ post,
        computeBandThresh fense tbl jdata span strict b'.1 b'.2 = Except.ok rec) ∧
    ∀ (fit : List ℚ → ℚ × ℚ) (meta : List (String × ℕ)) (names : List String)
      (m : Model),
      (∀ c ∈ names, (assocLookup meta c).isSome = true) →
      (runJobs fense fit meta tbl span strict m names).2 = true := by
  refine ⟨?_, ?_, fun fit meta names m hmeta =>
    runJobs_ok fense fit meta tbl span strict names m hmeta⟩
  · rw [threshOverBands_eq, threshOverBands_eq, threshOverBands_eq,
      List.filterMap_append, List.filterMap_cons, hb]
    simp [Except.toOption]
  · intro rec hrec
    rw [threshOverBands_eq, List.mem_filterMap] at hrec
    obtain ⟨b', hb', hob⟩ := hrec
    have hok : computeBandThresh fense tbl jdata span strict b'.1 b'.2 = Except.ok rec := by
      cases hcb : computeBandThresh fense tbl jdata span strict b'.1 b'.2 with
      | ok t =>
        rw [hcb] at hob
        simp [Except.toOption] at hob
        rw [hob]
      | error e2 =>
        rw [hcb] at hob
        simp [Except.toOption] at hob
    refine ⟨b', ?_, hok⟩
    rcases List.mem_append.mp hb' with h1 | h2
    · exact List.mem_append.mpr (Or.inl h1)
    · rcases List.mem_cons.mp h2 with rfl | h3
      · rw [hb] at hok
        simp at hok
      · exact List.mem_append.mpr (Or.inr h3)

/-- Concrete instantiation of `threshOverBands_skips_failed_band`: one row
at utilization 75, a fence estimator that fails on an empty sample vector;
the band `[0, 50]` has no qualifying samples and fails, yet the band
`[50, 100]` still yields its record. -/
theorem threshOverBands_skips_failed_band_wit :
    (computeBandThresh emptyFailFense
        ⟨[(⟨"j", 75, 1, 1, 1, 1, 1, 1, 1, 1⟩ : MetricRow)], true, false, false⟩
        [(⟨"j", 75, 1, 1, 1, 1, 1, 1, 1, 1⟩ : MetricRow)] 4 true 0 50
      = Except.error "too few samples") ∧
    threshOverBands emptyFailFense
        ⟨[(⟨"j", 75, 1, 1, 1, 1, 1, 1, 1, 1⟩ : MetricRow)], true, false, false⟩
        [(⟨"j", 75, 1, 1, 1, 1, 1, 1, 1, 1⟩ : MetricRow)] 4 true
        (([] : List (ℕ × ℕ)) ++ (0, 50) :: [(50, 100)])
      = threshOverBands emptyFailFense
          ⟨[(⟨"j", 75, 1, 1, 1, 1, 1, 1, 1, 1⟩ : MetricRow)], true, false, false⟩
          [(⟨"j", 75, 1, 1, 1, 1, 1, 1, 1, 1⟩ : MetricRow)] 4 true [] ++
        threshOverBands emptyFailFense
          ⟨[(⟨"j", 75, 1, 1, 1, 1, 1, 1, 1, 1⟩ : MetricRow)], true, false, false⟩
          [(⟨"j", 75, 1, 1, 1, 1, 1, 1, 1, 1⟩ : MetricRow)] 4 true [(50, 100)] := by
  have herr : computeBandThresh emptyFailFense
      ⟨[(⟨"j", 75, 1, 1, 1, 1, 1, 1, 1, 1⟩ : MetricRow)], true, false, false⟩
      [(⟨"j", 75, 1, 1, 1, 1, 1, 1, 1, 1⟩ : MetricRow)] 4 true 0 50
      = Except.error "too few samples" := by
    norm_num [computeBandThresh, get_fense, emptyFailFense, bandRowFilter,
      List.filter, Bind.bind, Except.bind]
  have h := threshOverBands_skips_failed_band emptyFailFense
    ⟨[(⟨"j", 75, 1, 1, 1, 1, 1, 1, 1, 1⟩ : MetricRow)], true, false, false⟩
    [(⟨"j", 75, 1, 1, 1, 1, 1, 1, 1, 1⟩ : MetricRow)] 4 true
    [] [(50, 100)] (0, 50) "too few samples" herr
  exact ⟨herr, h.1⟩

/-- C4: when the threshold store already holds a non-empty model,
`build_model` returns immediately with the state (in-memory model and
persisted file) unchanged; consequently a second call in succession leaves
the persisted file exactly as it was after the first call. -/
theorem build_model_short_circuit (fense : Fense) (fit : List ℚ → ℚ × ℚ)
    (s : AnalyzerState) (utilRows : List UtilRow) (tbl : MetricTable)
    (span : ℚ) (strict : Bool)
    (h : s.threshold.isEmpty = false) :
    build_model fense fit s utilRows tbl span strict = (s, true) ∧
    (build_model fense fit
        (build_model fense fit s utilRows tbl span strict).1
        utilRows tbl span strict).1.persisted
      = (build_model fense fit s utilRows tbl span strict).1.persisted := by
  have h1 : build_model fense fit s utilRows tbl span strict = (s, true) := by
    unfold build_model
    rw [if_pos h]
  refine ⟨h1, ?_⟩
  rw [h1]
  show (build_model fense fit s utilRows tbl span strict).1.persisted = s.persisted
  rw [h1]

/-- Concrete instantiation of `build_model_short_circuit`: a state whose
model already contains one job entry is returned untouched. -/
theorem build_model_short_circuit_wit :
    ((⟨[], ⟨[("a", ⟨none, []⟩)], none⟩, none⟩ : AnalyzerState).threshold.isEmpty
        = false) ∧
    build_model okFense constFit
        (⟨[], ⟨[("a", ⟨none, []⟩)], none⟩, none⟩ : AnalyzerState)
        [] ⟨[], true, true, true⟩ 4 true
      = ((⟨[], ⟨[("a", ⟨none, []⟩)], none⟩, none⟩ : AnalyzerState), true) :=
  ⟨rfl, (build_model_short_circuit okFense constFit
      (⟨[], ⟨[("a", ⟨none, []⟩)], none⟩, none⟩ : AnalyzerState)
      [] ⟨[], true, true, true⟩ 4 true rfl).1⟩

section MaxLemmas

lemma foldl_max_init_le (l : List ℚ) (a : ℚ) : a ≤ l.foldl max a := by
  induction l generalizing a with
  | nil => simp
  | cons h t ih =>
    simp only [List.foldl_cons]
    exact le_trans (le_max_left a h) (ih (max a h))

lemma foldl_max_mem_le (l : List ℚ) (a : ℚ) : ∀ x ∈ l, x ≤ l.foldl max a := by
  induction l generalizing a with
  | nil => simp
  | cons h t ih =>
    intro x hx
    simp only [List.foldl_cons]
    rcases List.mem_cons.mp hx with rfl | hx'
    · exact le_trans (le_max_right a x) (foldl_max_init_le t (max a x))
    · exact ih (max a h) x hx'

lemma foldl_max_mem (l : List ℚ) (a : ℚ) : l.foldl max a ∈ a :: l := by
  induction l generalizing a with
  | nil => simp
  | cons h t ih =>
    simp only [List.foldl_cons]
    have hm := ih (max a h)
    rcases List.mem_cons.mp hm with heq | hmem
    · rcases max_choice a h with h1 | h1 <;> rw [heq, h1]
      · exact List.mem_cons_self _ _
      · exact List.mem_cons_of_mem _ (List.mem_cons_self _ _)
    · exact List.mem_cons_of_mem _ (List.mem_cons_of_mem _ hmem)

lemma pymax_ge (l : List ℚ) : ∀ x ∈ l, x ≤ pymax l := by
  cases l with
  | nil => simp
  | cons h t =>
    intro x hx
    rcases List.mem_cons.mp hx with rfl | hx'
    · exact foldl_max_init_le t x
    · exact foldl_max_mem_le t h x hx'

lemma pymax_mem (l : List ℚ) (h : l ≠ []) : pymax l ∈ l := by
  cases l with
  | nil => exact absurd rfl h
  | cons a t => exact foldl_max_mem t a

end MaxLemmas

section AssocLemmas

lemma assocLookup_set_self {α : Type} (l : List (String × α)) (n : String) (e : α) :
    assocLookup (assocSet l n e) n = some e := by
  induction l with
  | nil => simp [assocSet, assocLookup]
  | cons kv t ih =>
    obtain ⟨k, v⟩ := kv
    by_cases hk : k = n
    · simp [assocSet, assocLookup, hk]
    · simp [assocSet, assocLookup, hk, ih]

lemma assocLookup_set_ne {α : Type} (l : List (String × α)) (n j : String) (e : α)
    (h : j ≠ n) :
    assocLookup (assocSet l n e) j = assocLookup l j := by
  induction l with
  | nil => simp [assocSet, assocLookup, Ne.symm h]
  | cons kv t ih =>
    obtain ⟨k, v⟩ := kv
    by_cases hk : k = n
    · subst hk
      have h1 : assocSet ((k, v) :: t) k e = (k, e) :: t := by simp [assocSet]
      rw [h1]
      simp [assocLookup, Ne.symm h]
    · have h1 : assocSet ((k, v) :: t) n e = (k, v) :: assocSet t n e := by
        simp [assocSet, hk]
      rw [h1]
      simp [assocLookup, ih]

lemma mem_keys_assocSet {α : Type} (l : List (String × α)) (n j : String) (e : α) :
    j ∈ (assocSet l n e).map Prod.fst ↔ j ∈ l.map Prod.fst ∨ j = n := by
  induction l with
  | nil => simp [assocSet]
  | cons kv t ih =>
    obtain ⟨k, v⟩ := kv
    by_cases hk : k = n
    · subst hk
      simp [assocSet]
      tauto
    · simp [assocSet, hk, ih]
      tauto

end AssocLemmas

section UniqueLemmas

lemma mem_uniqueNames (l : List String) : ∀ x ∈ uniqueNames l, x ∈ l := by
  cases l with
  | nil => simp [uniqueNames]
  | cons h t =>
    intro x hx
    simp only [uniqueNames] at hx
    rcases List.mem_cons.mp hx with rfl | hx'
    · exact List.mem_cons_self _ _
    · have hrec := mem_uniqueNames (t.filter (fun y => y != h)) x hx'
      exact List.mem_cons_of_mem _ (List.mem_of_mem_filter hrec)
  termination_by l.length
  decreasing_by
    simp only [List.length_cons]
    exact Nat.lt_succ_of_le (List.length_filter_le _ _)

end UniqueLemmas

section RunJobsLemmas

lemma runJobs_lcutilmax (fense : Fense) (fit : List ℚ → ℚ × ℚ)
    (meta : List (String × ℕ)) (tbl : MetricTable) (span : ℚ) (strict : Bool) :
    ∀ (names : List String) (m : Model),
      ((runJobs fense fit meta tbl span strict m names).1).lcutilmax = m.lcutilmax := by
  intro names
  induction names with
  | nil => intro m; rfl
  | cons c rest ih =>
    intro m
    cases hml : assocLookup meta c with
    | none => simp [runJobs, hml]
    | some cpu => simp [runJobs, hml, ih]

lemma runJobs_keys_subset (fense : Fense) (fit : List ℚ → ℚ × ℚ)
    (meta : List (String × ℕ)) (tbl : MetricTable) (span : ℚ) (strict : Bool) :
    ∀ (names : List String) (m : Model) (j : String),
      j ∈ ((runJobs fense fit meta tbl span strict m names).1).jobs.map Prod.fst →
      j ∈ m.jobs.map Prod.fst ∨ j ∈ names := by
  intro names
  induction names with
  | nil => intro m j h; exact Or.inl h
  | cons c rest ih =>
    intro m j h
    cases hml : assocLookup meta c with
    | none =>
      simp only [runJobs, hml] at h
      rcases (mem_keys_assocSet _ _ _ _).mp h with h1 | rfl
      · exact Or.inl h1
      · exact Or.inr (List.mem_cons_self _ _)
    | some cpu =>
      simp only [runJobs, hml] at h
      rcases ih _ j h with h1 | h1
      · rcases (mem_keys_assocSet _ _ _ _).mp h1 with h2 | rfl
        · rcases (mem_keys_assocSet _ _ _ _).mp h2 with h3 | rfl
          · exact Or.inl h3
          · exact Or.inr (List.mem_cons_self _ _)
        · exact Or.inr (List.mem_cons_self _ _)
      · exact Or.inr (List.mem_cons_of_mem _ h1)

lemma build_tdp_thresh_none (fit : List ℚ → ℚ × ℚ) (cpu_no : ℕ)
    (jdata : List MetricRow)
    (h : ∀ r ∈ jdata, r.util < tdpCutoff cpu_no) :
    build_tdp_thresh fit cpu_no jdata = none := by
  have hf : tdpRowFilter cpu_no jdata = [] := by
    rw [tdpRowFilter, List.filter_eq_nil_iff]
    intro r hr
    simpa using not_le.mpr (h r hr)
  simp [build_tdp_thresh, hf]

lemma runJobs_tdp_none (fense : Fense) (fit : List ℚ → ℚ × ℚ)
    (meta : List (String × ℕ)) (tbl : MetricTable) (span : ℚ) (strict : Bool)
    (j : String)
    (hr : ∀ cpus, assocLookup meta j = some cpus →
        ∀ r ∈ tbl.rows, r.name = j → r.util < tdpCutoff cpus) :
    ∀ (names : List String) (m : Model),
      (∀ e, assocLookup m.jobs j = some e → e.tdp = none) →
      ∀ e, assocLookup ((runJobs fense fit meta tbl span strict m names).1).jobs j
          = some e → e.tdp = none := by
  intro names
  induction names with
  | nil => intro m hm e he; exact hm e he
  | cons c rest ih =>
    intro m hm e he
    cases hml : assocLookup meta c with
    | none =>
      simp only [runJobs, hml] at he
      by_cases hcj : j = c
      · subst hcj
        rw [assocLookup_set_self] at he
        cases he
        rfl
      · rw [assocLookup_set_ne _ _ _ _ hcj] at he
        exact hm e he
    | some cpu =>
      simp only [runJobs, hml] at he
      refine ih _ ?_ e he
      intro e' he'
      by_cases hcj : j = c
      · subst hcj
        rw [assocLookup_set_self] at he'
        cases he'
        show build_tdp_thresh fit cpu (tbl.rows.filter (fun r => r.name == j)) = none
        apply build_tdp_thresh_none
        intro r hrm
        have hrj : r.name = j := by
          have := List.of_mem_filter hrm
          simpa using this
        exact hr cpu hml r (List.mem_of_mem_filter hrm) hrj
      · rw [assocLookup_set_ne _ _ _ _ hcj, assocLookup_set_ne _ _ _ _ hcj] at he'
        exact hm e' he'

end RunJobsLemmas

section ProcessLcLemmas

lemma process_lc_max_eq (utilRows : List UtilRow) (h : utilRows ≠ []) :
    process_lc_max utilRows
      = some ((pyint (pymax (utilRows.map (fun r => r.util))) : ℤ) : ℚ) := by
  cases utilRows with
  | nil => exact absurd rfl h
  | cons r t => rfl

end ProcessLcLemmas

/-- C6: when every row of the metric table belonging to job `j` has CPU
utilization strictly below the near-saturation cutoff for `j`'s core
count, a `build_model` pass started on an empty model leaves `j`'s TDP
record empty: any entry the build created for `j` has `tdp = none`. -/
theorem build_model_no_tdp_when_below (fense : Fense) (fit : List ℚ → ℚ × ℚ)
    (s : AnalyzerState) (utilRows : List UtilRow) (tbl : MetricTable)
    (span : ℚ) (strict : Bool) (j : String)
    (hempty : s.threshold.isEmpty = true)
    (hr : ∀ cpus, assocLookup s.workload_meta j = some cpus →
        ∀ r ∈ tbl.rows, r.name = j → r.util < tdpCutoff cpus) :
    ∀ e, assocLookup
        ((build_model fense fit s utilRows tbl span strict).1.threshold.jobs) j
        = some e → e.tdp = none := by
  intro e he
  have hjobs : s.threshold.jobs = [] := by
    have h1 : s.threshold.jobs.isEmpty = true := by
      have := hempty
      unfold Model.isEmpty at this
      exact (Bool.and_eq_true _ _).mp this |>.1
    simpa [List.isEmpty_iff] using h1
  have hcond : ¬ (s.threshold.isEmpty = false) := by simp [hempty]
  rw [build_model, if_neg hcond] at he
  cases hplc : process_lc_max utilRows with
  | none =>
    rw [hplc] at he
    simp only at he
    rw [hjobs] at he
    cases he
  | some v =>
    rw [hplc] at he
    simp only at he
    set m1 : Model := { s.threshold with lcutilmax := some v } with hm1
    set cnames := uniqueNames (tbl.rows.map (fun r => r.name)) with hcn
    have hbase : ∀ e', assocLookup m1.jobs j = some e' → e'.tdp = none := by
      intro e' he'
      rw [hm1] at he'
      simp only at he'
      rw [hjobs] at he'
      cases he'
    have hfin := runJobs_tdp_none fense fit s.workload_meta tbl span strict j hr
      cnames m1 hbase e
    apply hfin
    by_cases hok : (runJobs fense fit s.workload_meta tbl span strict m1 cnames).2 = true
    · rw [if_pos hok] at he
      exact he
    · rw [if_neg hok] at he
      exact he

/-- Concrete instantiation of `build_model_no_tdp_when_below`: a 1-core
job whose single sample sits at utilization 50, far below the cutoff 95;
after the build, `get_tdp_thresh` yields the empty record. -/
theorem build_model_no_tdp_when_below_wit :
    get_tdp_thresh
      (build_model okFense constFit
        (⟨[("j", 1)], ⟨[], none⟩, none⟩ : AnalyzerState)
        [⟨"j", 50⟩]
        ⟨[(⟨"j", 50, 1, 1, 1, 1, 1, 1, 1, 1⟩ : MetricRow)], true, false, false⟩
        4 true).1.threshold "j" = none := by
  have h := build_model_no_tdp_when_below okFense constFit
    (⟨[("j", 1)], ⟨[], none⟩, none⟩ : AnalyzerState)
    [⟨"j", 50⟩]
    ⟨[(⟨"j", 50, 1, 1, 1, 1, 1, 1, 1, 1⟩ : MetricRow)], true, false, false⟩
    4 true "j" rfl
    (by
      intro cpus hc r hrm hname
      have hc1 : cpus = 1 := by
        simp [assocLookup] at hc
        omega
      subst hc1
      have hre : r = (⟨"j", 50, 1, 1, 1, 1, 1, 1, 1, 1⟩ : MetricRow) :=
        List.mem_singleton.mp hrm
      subst hre
      norm_num [tdpCutoff])
  cases hm : assocLookup
      ((build_model okFense constFit
        (⟨[("j", 1)], ⟨[], none⟩, none⟩ : AnalyzerState)
        [⟨"j", 50⟩]
        ⟨[(⟨"j", 50, 1, 1, 1, 1, 1, 1, 1, 1⟩ : MetricRow)], true, false, false⟩
        4 true).1.threshold.jobs) "j" with
  | none => simp [get_tdp_thresh, Model.hasKey, hm]
  | some e => simp [get_tdp_thresh, Model.hasKey, hm, h e hm]

/-- C7 counterexample: a utilization table whose single sample (tagged as
a latency-critical job) has fractional utilization 21/2; `_process_lc_max`
stores 10, which is not the maximum observed CPU-utilization value. -/
theorem process_lc_max_cex :
    process_lc_max [⟨"lcs", (21 : ℚ) / 2⟩] = some 10 ∧
    pymax (([(⟨"lcs", (21 : ℚ) / 2⟩ : UtilRow)]).map (fun r => r.util)) = 21 / 2 ∧
    (10 : ℚ) ≠ 21 / 2 := by
  refine ⟨?_, by norm_num [pymax], by norm_num⟩
  rw [process_lc_max_eq _ (by simp)]
  norm_num [pymax, pyint, Rat.floor]

/-- C7 amended: `_process_lc_max` records the integer truncation (Python
`int()`) of the maximum CPU-utilization value of the full, unfiltered
utilization column; the maximum is an upper bound attained by some row,
and the stored value is independent of the rows' job names (the filter by
name `lcs` is computed but discarded). -/
theorem process_lc_max_spec (rows : List UtilRow) (h : rows ≠ []) :
    process_lc_max rows
      = some ((pyint (pymax (rows.map (fun r => r.util))) : ℤ) : ℚ) ∧
    (∀ r ∈ rows, r.util ≤ pymax (rows.map (fun r => r.util))) ∧
    pymax (rows.map (fun r => r.util)) ∈ rows.map (fun r => r.util) ∧
    ∀ f : String → String,
      process_lc_max (rows.map (fun r => ⟨f r.name, r.util⟩))
        = process_lc_max rows := by
  refine ⟨process_lc_max_eq rows h, ?_, ?_, ?_⟩
  · intro r hr
    exact pymax_ge _ _ (List.mem_map_of_mem _ hr)
  · apply pymax_mem
    simpa using h
  · intro f
    have hne2 : rows.map (fun r => (⟨f r.name, r.util⟩ : UtilRow)) ≠ [] := by
      simpa using h
    rw [process_lc_max_eq _ h, process_lc_max_eq _ hne2]
    have hmm : (rows.map (fun r => (⟨f r.name, r.util⟩ : UtilRow))).map
        (fun r => r.util) = rows.map (fun r => r.util) := by
      rw [List.map_map]
      rfl
    rw [hmm]

/-- Concrete instantiation of `process_lc_max_spec` on a one-row table. -/
theorem process_lc_max_spec_wit :
    (([(⟨"a", 3⟩ : UtilRow)] : List UtilRow) ≠ []) ∧
    (process_lc_max [(⟨"a", 3⟩ : UtilRow)]
      = some ((pyint (pymax ([(⟨"a", 3⟩ : UtilRow)].map (fun r => r.util))) : ℤ) : ℚ) ∧
    (∀ r ∈ [(⟨"a", 3⟩ : UtilRow)],
      r.util ≤ pymax ([(⟨"a", 3⟩ : UtilRow)].map (fun r => r.util))) ∧
    pymax ([(⟨"a", 3⟩ : UtilRow)].map (fun r => r.util))
      ∈ [(⟨"a", 3⟩ : UtilRow)].map (fun r => r.util) ∧
    ∀ f : String → String,
      process_lc_max ([(⟨"a", 3⟩ : UtilRow)].map (fun r => ⟨f r.name, r.util⟩))
        = process_lc_max [(⟨"a", 3⟩ : UtilRow)]) :=
  ⟨by simp, process_lc_max_spec [(⟨"a", 3⟩ : UtilRow)] (by simp)⟩

set_option maxHeartbeats 1600000 in
/-- C10: a `build_model` pass on an empty model with a non-empty
utilization table stores as `lcutilmax` the integer truncation of the
maximum CPU-utilization value, so `get_lcutilmax` afterwards returns that
truncated value, which is an integer. -/
theorem build_model_lcutilmax_trunc (fense : Fense) (fit : List ℚ → ℚ × ℚ)
    (s : AnalyzerState) (utilRows : List UtilRow) (tbl : MetricTable)
    (span : ℚ) (strict : Bool)
    (hempty : s.threshold.isEmpty = true) (hne : utilRows ≠ []) :
    get_lcutilmax (build_model fense fit s utilRows tbl span strict).1.threshold
      = ((pyint (pymax (utilRows.map (fun r => r.util))) : ℤ) : ℚ) ∧
    ∃ z : ℤ,
      get_lcutilmax (build_model fense fit s utilRows tbl span strict).1.threshold
        = (z : ℚ) := by
  have hcond : ¬ (s.threshold.isEmpty = false) := by simp [hempty]
  have hmain : get_lcutilmax
      (build_model fense fit s utilRows tbl span strict).1.threshold
      = ((pyint (pymax (utilRows.map (fun r => r.util))) : ℤ) : ℚ) := by
    rw [build_model, if_neg hcond, process_lc_max_eq utilRows hne]
    simp only
    by_cases hok : (runJobs fense fit s.workload_meta tbl span strict
        { s.threshold with
            lcutilmax := some ((pyint (pymax (utilRows.map (fun r => r.util))) : ℤ) : ℚ) }
        (uniqueNames (tbl.rows.map (fun r => r.name)))).2 = true
    · rw [if_pos hok]
      simp [get_lcutilmax, runJobs_lcutilmax]
    · rw [if_neg hok]
      simp [get_lcutilmax, runJobs_lcutilmax]
  exact ⟨hmain, ⟨pyint (pymax (utilRows.map (fun r => r.util))), hmain⟩⟩

/-- Concrete instantiation of `build_model_lcutilmax_trunc`: every sample
fractional (utilizations 21/2 and 7/2), and the stored ceiling is the
integer 10. -/
theorem build_model_lcutilmax_trunc_wit :
    get_lcutilmax
      (build_model okFense constFit
        (⟨[], ⟨[], none⟩, none⟩ : AnalyzerState)
        [⟨"a", (21 : ℚ) / 2⟩, ⟨"b", (7 : ℚ) / 2⟩]
        ⟨[], true, false, false⟩ 4 true).1.threshold = 10 := by
  have h := build_model_lcutilmax_trunc okFense constFit
    (⟨[], ⟨[], none⟩, none⟩ : AnalyzerState)
    [⟨"a", (21 : ℚ) / 2⟩, ⟨"b", (7 : ℚ) / 2⟩]
    ⟨[], true, false, false⟩ 4 true rfl (by simp)
  rw [h.1]
  norm_num [pymax, pyint, Rat.floor]

/-- C8: `get_thresh` on a job name that is not a key of the model returns
the empty sequence, `get_tdp_thresh` returns the empty record, and
`get_lcutilmax` returns 0 whenever `lcutilmax` was never set; all three
accessors are total functions (no error is raised). -/
theorem accessors_absent_spec (m : Model) (job : String) :
    (m.hasKey job = false →
      get_thresh m job = [] ∧ get_tdp_thresh m job = none) ∧
    (m.lcutilmax = none → get_lcutilmax m = 0) := by
  constructor
  · intro h
    constructor
    · simp [get_thresh, h]
    · simp [get_tdp_thresh, h]
  · intro h
    simp [get_lcutilmax, h]

/-- Concrete instantiation of `accessors_absent_spec`: a model holding job
`a` and no `lcutilmax`, queried for the unknown job `b`. -/
theorem accessors_absent_spec_wit :
    ((⟨[("a", ⟨none, []⟩)], none⟩ : Model).hasKey "b" = false) ∧
    get_thresh (⟨[("a", ⟨none, []⟩)], none⟩ : Model) "b" = [] ∧
    get_tdp_thresh (⟨[("a", ⟨none, []⟩)], none⟩ : Model) "b" = none ∧
    get_lcutilmax (⟨[("a", ⟨none, []⟩)], none⟩ : Model) = 0 := by
  have h := accessors_absent_spec (⟨[("a", ⟨none, []⟩)], none⟩ : Model) "b"
  have hk : (⟨[("a", ⟨none, []⟩)], none⟩ : Model).hasKey "b" = false := by
    simp [Model.hasKey, assocLookup]
  exact ⟨hk, (h.1 hk).1, (h.1 hk).2, h.2 rfl⟩

/-- C9 counterexample: a metric table containing a job `x` absent from the
workload metadata makes `build_model` raise (flag `false`), but only after
it has stored the empty entry for `x`; the in-memory model then has the
key `x` while the metadata does not, violating the claimed subset
invariant "at every point in the model's lifetime". -/
theorem build_model_meta_invariant_cex :
    ((build_model okFense constFit
        (⟨[], ⟨[], none⟩, none⟩ : AnalyzerState)
        [⟨"x", 90⟩]
        ⟨[(⟨"x", 90, 1, 1, 1, 1, 1, 1, 1, 1⟩ : MetricRow)], true, false, false⟩
        4 true).2 = false) ∧
    ("x" ∈ ((build_model okFense constFit
        (⟨[], ⟨[], none⟩, none⟩ : AnalyzerState)
        [⟨"x", 90⟩]
        ⟨[(⟨"x", 90, 1, 1, 1, 1, 1, 1, 1, 1⟩ : MetricRow)], true, false, false⟩
        4 true).1.threshold.jobs.map Prod.fst)) ∧
    assocLookup ((⟨[], ⟨[], none⟩, none⟩ : AnalyzerState).workload_meta) "x"
      = none := by
  have hplc : process_lc_max [(⟨"x", 90⟩ : UtilRow)] = some 90 := by
    rw [process_lc_max_eq _ (by simp)]
    norm_num [pymax, pyint, Rat.floor]
  refine ⟨?_, ?_, rfl⟩ <;>
  · rw [build_model]
    norm_num [Model.isEmpty, hplc, uniqueNames, runJobs, assocLookup, assocSet]

/-- C9 amended: when every job of the metric table is present in the
workload metadata, a `build_model` pass preserves the invariant that every
job key of the model has known metadata; `update_lcutilmax` never touches
the job keys.  (The unamended claim fails on a table containing an unknown
job: the build aborts after inserting that job's empty entry, see the
counterexample.) -/
theorem build_model_meta_invariant (fense : Fense) (fit : List ℚ → ℚ × ℚ)
    (s : AnalyzerState) (utilRows : List UtilRow) (tbl : MetricTable)
    (span : ℚ) (strict : Bool)
    (hinv : ∀ k ∈ s.threshold.jobs.map Prod.fst,
        (assocLookup s.workload_meta k).isSome = true)
    (hnames : ∀ r ∈ tbl.rows,
        (assocLookup s.workload_meta r.name).isSome = true) :
    (∀ k ∈ (build_model fense fit s utilRows tbl span strict).1.threshold.jobs.map
        Prod.fst,
      (assocLookup s.workload_meta k).isSome = true) ∧
    ∀ v, (update_lcutilmax s v).threshold.jobs = s.threshold.jobs := by
  refine ⟨?_, fun v => rfl⟩
  intro k hk
  by_cases hcond : s.threshold.isEmpty = false
  · rw [build_model, if_pos hcond] at hk
    exact hinv k hk
  · rw [build_model, if_neg hcond] at hk
    cases hplc : process_lc_max utilRows with
    | none =>
      rw [hplc] at hk
      exact hinv k hk
    | some v =>
      rw [hplc] at hk
      simp only at hk
      have hk2 : k ∈ ((runJobs fense fit s.workload_meta tbl span strict
          { s.threshold with lcutilmax := some v }
          (uniqueNames (tbl.rows.map (fun r => r.name)))).1).jobs.map Prod.fst := by
        by_cases hok : (runJobs fense fit s.workload_meta tbl span strict
            { s.threshold with lcutilmax := some v }
            (uniqueNames (tbl.rows.map (fun r => r.name)))).2 = true
        · rw [if_pos hok] at hk
          exact hk
        · rw [if_neg hok] at hk
          exact hk
      rcases runJobs_keys_subset fense fit s.workload_meta tbl span strict _ _ k hk2
        with h1 | h1
      · exact hinv k h1
      · have hkrows : k ∈ tbl.rows.map (fun r => r.name) :=
          mem_uniqueNames _ k h1
        obtain ⟨r, hrm, hrk⟩ := List.mem_map.mp hkrows
        rw [← hrk]
        exact hnames r hrm

/-- Concrete instantiation of `build_model_meta_invariant`: one job `j`
present in the metadata; after the build every model job key has
metadata. -/
theorem build_model_meta_invariant_wit :
    (∀ k ∈ (build_model okFense constFit
        (⟨[("j", 1)], ⟨[], none⟩, none⟩ : AnalyzerState)
        [⟨"j", 50⟩]
        ⟨[(⟨"j", 50, 1, 1, 1, 1, 1, 1, 1, 1⟩ : MetricRow)], true, false, false⟩
        4 true).1.threshold.jobs.map Prod.fst,
      (assocLookup ((⟨[("j", 1)], ⟨[], none⟩, none⟩ : AnalyzerState).workload_meta)
          k).isSome = true) ∧
    ∀ v, (update_lcutilmax (⟨[("j", 1)], ⟨[], none⟩, none⟩ : AnalyzerState)
        v).threshold.jobs
      = (⟨[("j", 1)], ⟨[], none⟩, none⟩ : AnalyzerState).threshold.jobs := by
  have h := build_model_meta_invariant okFense constFit
    (⟨[("j", 1)], ⟨[], none⟩, none⟩ : AnalyzerState)
    [⟨"j", 50⟩]
    ⟨[(⟨"j", 50, 1, 1, 1, 1, 1, 1, 1, 1⟩ : MetricRow)], true, false, false⟩
    4 true (by simp) ?_
  · exact h
  · intro r hrm
    have hre : r = (⟨"j", 50, 1, 1, 1, 1, 1, 1, 1, 1⟩ : MetricRow) :=
      List.mem_singleton.mp hrm
    subst hre
    simp [assocLookup]

end PRM
